import Mathlib

/-!
Verification development for the HTML syntax fixer script `fix-html-syntax.py`.

The script performs, on an in-memory string:
1. an entity-unescaping pass: a loop collapsing the doubly escaped sequence
   to its singly escaped form until it no longer occurs, then a final
   replacement of the singly escaped sequence by a literal ampersand;
2. eight fixed literal tag-adjacency substitutions inserting newlines;
3. a diagnostic tag-balance count (console-only, no content change);
4. a collapse of runs of two or more spaces to a single space;
5. a line-by-line re-indentation pass driven by a depth counter.

Strings are embedded as `List Char`.  Python string replacement (and `re.sub`
with a literal pattern) scans left to right and replaces non-overlapping
occurrences, continuing after each match; it is embedded as a fuel-indexed
structural recursion (`replaceFuel`) so that every definition is executable
by kernel reduction.  The fuel supplied is the length of the scanned list,
which is always sufficient because each step consumes at least one character.
-/

namespace FixHtml

/-- The doubly escaped ampersand sequence searched for by the collapse loop. -/
def ampamp : List Char := "&amp;amp;".toList

/-- The singly escaped ampersand sequence. -/
def amp : List Char := "&amp;".toList

/-- A literal ampersand, the replacement of the final cleanup step. -/
def ampersand : List Char := "&".toList

/-- Fuel-indexed left-to-right replacement of all non-overlapping occurrences
of `pat` by `repl`, the semantics of Python `str.replace` (and of `re.sub`
with a literal pattern).  At each position, if `pat` matches, the replacement
is emitted and the scan continues after the match; otherwise one character is
copied.  The script only ever replaces non-empty literal patterns; the
`pat ≠ []` guard keeps the definition total without changing those uses. -/
def replaceFuel (pat repl : List Char) : Nat → List Char → List Char
  | 0, s => s
  | _ + 1, [] => []
  | fuel + 1, c :: rest =>
    if pat ≠ [] ∧ pat <+: c :: rest then
      repl ++ replaceFuel pat repl fuel (List.drop pat.length (c :: rest))
    else
      c :: replaceFuel pat repl fuel rest

/-- Replace every non-overlapping occurrence of `pat` in `s` by `repl`,
scanning left to right: Python `s.replace(pat, repl)`. -/
def replace (pat repl s : List Char) : List Char := replaceFuel pat repl s.length s

/-- Python substring membership `pat in s`. -/
def hasSub (pat s : List Char) : Bool := decide (pat <:+: s)

/-- The entity-collapse loop of the script: while the doubly escaped sequence
occurs, replace all its occurrences by the singly escaped form, breaking if a
pass makes no progress.  The Python loop is unbounded; here it is fuel-indexed,
and fuel `s.length` is proved sufficient below (each productive pass strictly
shrinks the string). -/
def collapseLoop : Nat → List Char → List Char
  | 0, s => s
  | fuel + 1, s =>
    if hasSub ampamp s then
      if replace ampamp amp s = s then s
      else collapseLoop fuel (replace ampamp amp s)
    else s

/-- The entity-collapse loop run with sufficient fuel. -/
def collapseAmp (s : List Char) : List Char := collapseLoop s.length s

/-- The full entity-unescaping pass: collapse loop, then the final cleanup
replacing each remaining singly escaped sequence by a literal ampersand. -/
def unescapeEntities (s : List Char) : List Char :=
  replace amp ampersand (collapseAmp s)

theorem replaceFuel_congr (pat repl : List Char) :
    ∀ f1 f2 s, s.length ≤ f1 → s.length ≤ f2 →
      replaceFuel pat repl f1 s = replaceFuel pat repl f2 s := by
  intro f1
  induction f1 with
  | zero =>
    intro f2 s h1 _
    have hs : s = [] := List.length_eq_zero.mp (Nat.le_zero.mp h1)
    subst hs
    cases f2 <;> rfl
  | succ f1 ih =>
    intro f2 s h1 h2
    cases s with
    | nil => cases f2 <;> rfl
    | cons c rest =>
      cases f2 with
      | zero => simp at h2
      | succ f2' =>
        simp only [replaceFuel]
        by_cases hc : pat ≠ [] ∧ pat <+: c :: rest
        · rw [if_pos hc, if_pos hc]
          have hp : 1 ≤ pat.length := List.length_pos.mpr hc.1
          have hl1 : rest.length ≤ f1 := by simpa using h1
          have hl2 : rest.length ≤ f2' := by simpa using h2
          have hd1 : (List.drop pat.length (c :: rest)).length ≤ f1 := by
            simp only [List.length_drop, List.length_cons]
            omega
          have hd2 : (List.drop pat.length (c :: rest)).length ≤ f2' := by
            simp only [List.length_drop, List.length_cons]
            omega
          rw [ih f2' _ hd1 hd2]
        · rw [if_neg hc, if_neg hc]
          have hl1 : rest.length ≤ f1 := by simpa using h1
          have hl2 : rest.length ≤ f2' := by simpa using h2
          rw [ih f2' rest hl1 hl2]

theorem replace_nil (pat repl : List Char) : replace pat repl [] = [] := rfl

theorem replace_cons_pos (pat repl : List Char) (c : Char) (rest : List Char)
    (hne : pat ≠ []) (hp : pat <+: c :: rest) :
    replace pat repl (c :: rest) =
      repl ++ replace pat repl (List.drop pat.length (c :: rest)) := by
  show replaceFuel pat repl (c :: rest).length (c :: rest) = _
  simp only [List.length_cons, replaceFuel]
  rw [if_pos ⟨hne, hp⟩]
  congr 1
  apply replaceFuel_congr
  · have hp1 : 1 ≤ pat.length := List.length_pos.mpr hne
    simp only [List.length_drop, List.length_cons]
    omega
  · exact le_rfl

theorem replace_cons_neg (pat repl : List Char) (c : Char) (rest : List Char)
    (h : ¬(pat ≠ [] ∧ pat <+: c :: rest)) :
    replace pat repl (c :: rest) = c :: replace pat repl rest := by
  show replaceFuel pat repl (c :: rest).length (c :: rest) = _
  simp only [List.length_cons, replaceFuel]
  rw [if_neg h]
  rfl

theorem replace_length_le_aux (pat repl : List Char) (h : repl.length ≤ pat.length) :
    ∀ n s, s.length ≤ n → (replace pat repl s).length ≤ s.length := by
  intro n
  induction n with
  | zero =>
    intro s hs
    have : s = [] := List.length_eq_zero.mp (Nat.le_zero.mp hs)
    subst this
    simp [replace_nil]
  | succ n ih =>
    intro s hs
    cases s with
    | nil => simp [replace_nil]
    | cons c rest =>
      by_cases hc : pat ≠ [] ∧ pat <+: c :: rest
      · rw [replace_cons_pos pat repl c rest hc.1 hc.2]
        have hplen : pat.length ≤ (c :: rest).length := hc.2.length_le
        have hp1 : 1 ≤ pat.length := List.length_pos.mpr hc.1
        have hdl : (List.drop pat.length (c :: rest)).length =
            (c :: rest).length - pat.length := List.length_drop _ _
        have hrec := ih (List.drop pat.length (c :: rest))
          (by simp only [hdl, List.length_cons]; simp only [List.length_cons] at hs; omega)
        simp only [List.length_append, List.length_cons] at *
        omega
      · rw [replace_cons_neg pat repl c rest hc]
        have hrec := ih rest (by simp only [List.length_cons] at hs; omega)
        simp only [List.length_cons]
        omega

theorem replace_length_le (pat repl : List Char) (h : repl.length ≤ pat.length)
    (s : List Char) : (replace pat repl s).length ≤ s.length :=
  replace_length_le_aux pat repl h s.length s le_rfl

theorem replace_length_lt_aux (pat repl : List Char) (hne : pat ≠ [])
    (h : repl.length < pat.length) :
    ∀ n s, s.length ≤ n → pat <:+: s → (replace pat repl s).length < s.length := by
  intro n
  induction n with
  | zero =>
    intro s hs hinf
    have : s = [] := List.length_eq_zero.mp (Nat.le_zero.mp hs)
    subst this
    exact absurd (List.infix_nil.mp hinf) hne
  | succ n ih =>
    intro s hs hinf
    cases s with
    | nil => exact absurd (List.infix_nil.mp hinf) hne
    | cons c rest =>
      by_cases hc : pat <+: c :: rest
      · rw [replace_cons_pos pat repl c rest hne hc]
        have hplen : pat.length ≤ (c :: rest).length := hc.length_le
        have hdl : (List.drop pat.length (c :: rest)).length =
            (c :: rest).length - pat.length := List.length_drop _ _
        have hle := replace_length_le pat repl (Nat.le_of_lt h)
          (List.drop pat.length (c :: rest))
        simp only [List.length_append, List.length_cons] at *
        omega
      · have hc' : ¬(pat ≠ [] ∧ pat <+: c :: rest) := fun hh => hc hh.2
        rw [replace_cons_neg pat repl c rest hc']
        have hrest : pat <:+: rest := by
          rcases List.infix_cons_iff.mp hinf with h1 | h2
          · exact absurd h1 hc
          · exact h2
        have hrec := ih rest (by simp only [List.length_cons] at hs; omega) hrest
        simp only [List.length_cons]
        omega

theorem replace_length_lt (pat repl : List Char) (hne : pat ≠ [])
    (h : repl.length < pat.length) (s : List Char) (hinf : pat <:+: s) :
    (replace pat repl s).length < s.length :=
  replace_length_lt_aux pat repl hne h s.length s le_rfl hinf

theorem replace_eq_self (pat repl s : List Char) (h : ¬ pat <:+: s) :
    replace pat repl s = s := by
  induction s with
  | nil => exact replace_nil pat repl
  | cons c rest ih =>
    have hnp : ¬ pat <+: c :: rest := fun hp => h hp.isInfix
    rw [replace_cons_neg pat repl c rest (fun hh => hnp hh.2)]
    rw [ih (fun hinf => h (List.infix_cons hinf))]

theorem filter_replace_aux (p : Char → Bool) (pat repl : List Char)
    (hf : List.filter p pat = List.filter p repl) :
    ∀ n s, s.length ≤ n → List.filter p (replace pat repl s) = List.filter p s := by
  intro n
  induction n with
  | zero =>
    intro s hs
    have : s = [] := List.length_eq_zero.mp (Nat.le_zero.mp hs)
    subst this
    rw [replace_nil]
  | succ n ih =>
    intro s hs
    cases s with
    | nil => rw [replace_nil]
    | cons c rest =>
      by_cases hc : pat ≠ [] ∧ pat <+: c :: rest
      · rw [replace_cons_pos pat repl c rest hc.1 hc.2]
        obtain ⟨t, ht⟩ := hc.2
        have hdrop : List.drop pat.length (c :: rest) = t := by
          rw [← ht, List.drop_left]
        have hp1 : 1 ≤ pat.length := List.length_pos.mpr hc.1
        have htlen : t.length ≤ n := by
          have := congrArg List.length ht
          simp only [List.length_append, List.length_cons] at this
          simp only [List.length_cons] at hs
          omega
        rw [hdrop, List.filter_append, ih t htlen, ← hf, ← List.filter_append, ht]
      · rw [replace_cons_neg pat repl c rest hc]
        have hrec := ih rest (by simp only [List.length_cons] at hs; omega)
        simp only [List.filter_cons]
        rw [hrec]

theorem filter_replace (p : Char → Bool) (pat repl : List Char)
    (hf : List.filter p pat = List.filter p repl) (s : List Char) :
    List.filter p (replace pat repl s) = List.filter p s :=
  filter_replace_aux p pat repl hf s.length s le_rfl

theorem hasSub_iff (pat s : List Char) : hasSub pat s = true ↔ pat <:+: s := by
  simp [hasSub]

theorem ampamp_ne : ampamp ≠ [] := by decide

theorem amp_ne : amp ≠ [] := by decide

theorem amp_len_lt : amp.length < ampamp.length := by decide

/-- The four characters following the ampersand in the escaped sequence. -/
def tail4 : List Char := "amp;".toList

theorem amp_eq : amp = '&' :: tail4 := by decide

theorem ampamp_eq : ampamp = amp ++ tail4 := by decide

theorem tail4_no_amp : ∀ c ∈ tail4, c ≠ '&' := by decide

theorem collapseLoop_no : ∀ fuel s, s.length ≤ fuel →
    hasSub ampamp (collapseLoop fuel s) = false := by
  intro fuel
  induction fuel with
  | zero =>
    intro s hs
    have : s = [] := List.length_eq_zero.mp (Nat.le_zero.mp hs)
    subst this
    decide
  | succ fuel ih =>
    intro s hs
    simp only [collapseLoop]
    by_cases h1 : hasSub ampamp s = true
    · rw [if_pos h1]
      have hinf : ampamp <:+: s := (hasSub_iff ampamp s).mp h1
      have hlt : (replace ampamp amp s).length < s.length :=
        replace_length_lt ampamp amp ampamp_ne amp_len_lt s hinf
      by_cases h2 : replace ampamp amp s = s
      · exfalso
        rw [h2] at hlt
        exact lt_irrefl _ hlt
      · rw [if_neg h2]
        exact ih _ (by omega)
    · rw [if_neg h1]
      exact Bool.eq_false_iff.mpr h1

theorem collapseAmp_no (s : List Char) : hasSub ampamp (collapseAmp s) = false :=
  collapseLoop_no s.length s le_rfl

theorem collapseAmp_not_occurs (s : List Char) : ¬ ampamp <:+: collapseAmp s := by
  intro hinf
  have h1 := collapseAmp_no s
  have h2 := (hasSub_iff ampamp (collapseAmp s)).mpr hinf
  rw [h1] at h2
  exact Bool.false_ne_true h2

theorem collapseAmp_fixed (s : List Char) :
    replace ampamp amp (collapseAmp s) = collapseAmp s :=
  replace_eq_self ampamp amp (collapseAmp s) (collapseAmp_not_occurs s)

theorem collapseAmp_eq_of_no (s : List Char) (h : ¬ ampamp <:+: s) :
    collapseAmp s = s := by
  have hb : hasSub ampamp s = false := by simp [hasSub, h]
  show collapseLoop s.length s = s
  cases hn : s.length with
  | zero => rfl
  | succ n => simp [collapseLoop, hb]

theorem collapseLoop_iter : ∀ fuel s, s.length ≤ fuel →
    ∃ n, n ≤ fuel ∧ collapseLoop fuel s = (fun t => replace ampamp amp t)^[n] s := by
  intro fuel
  induction fuel with
  | zero =>
    intro s _
    exact ⟨0, le_rfl, rfl⟩
  | succ fuel ih =>
    intro s hs
    by_cases h1 : hasSub ampamp s = true
    · have hinf : ampamp <:+: s := (hasSub_iff ampamp s).mp h1
      have hlt : (replace ampamp amp s).length < s.length :=
        replace_length_lt ampamp amp ampamp_ne amp_len_lt s hinf
      by_cases h2 : replace ampamp amp s = s
      · refine ⟨0, Nat.zero_le _, ?_⟩
        simp only [collapseLoop]
        rw [if_pos h1, if_pos h2]
        rfl
      · obtain ⟨n, hn, he⟩ := ih (replace ampamp amp s) (by omega)
        refine ⟨n + 1, by omega, ?_⟩
        simp only [collapseLoop]
        rw [if_pos h1, if_neg h2, Function.iterate_succ_apply]
        exact he
    · refine ⟨0, Nat.zero_le _, ?_⟩
      simp only [collapseLoop]
      rw [if_neg h1]
      rfl

theorem prefix_pullback : ∀ (w : List Char), (∀ c ∈ w, c ≠ '&') →
    ∀ t, w <+: replace amp ampersand t → w <+: t := by
  intro w
  induction w with
  | nil =>
    intro _ t _
    exact List.nil_prefix
  | cons a w' ih =>
    intro hw t hp
    cases t with
    | nil =>
      rw [replace_nil] at hp
      exact absurd (List.prefix_nil.mp hp) (List.cons_ne_nil a w')
    | cons c rest =>
      by_cases hc : amp ≠ [] ∧ amp <+: c :: rest
      · rw [replace_cons_pos amp ampersand c rest hc.1 hc.2] at hp
        have hcons : ampersand ++ replace amp ampersand (List.drop amp.length (c :: rest)) =
            '&' :: replace amp ampersand (List.drop amp.length (c :: rest)) := rfl
        rw [hcons, List.cons_prefix_cons] at hp
        exact absurd hp.1 (hw a (List.mem_cons_self a w'))
      · rw [replace_cons_neg amp ampersand c rest hc] at hp
        rw [List.cons_prefix_cons] at hp ⊢
        exact ⟨hp.1, ih (fun d hd => hw d (List.mem_cons_of_mem a hd)) rest hp.2⟩

theorem no_amp_replace_aux : ∀ n s, s.length ≤ n → ¬ ampamp <:+: s →
    ¬ amp <:+: replace amp ampersand s := by
  intro n
  induction n with
  | zero =>
    intro s hs _ hcontra
    have : s = [] := List.length_eq_zero.mp (Nat.le_zero.mp hs)
    subst this
    rw [replace_nil] at hcontra
    exact amp_ne (List.infix_nil.mp hcontra)
  | succ n ih =>
    intro s hs hno hcontra
    cases s with
    | nil =>
      rw [replace_nil] at hcontra
      exact amp_ne (List.infix_nil.mp hcontra)
    | cons c rest =>
      by_cases hc : amp <+: c :: rest
      · rw [replace_cons_pos amp ampersand c rest amp_ne hc] at hcontra
        obtain ⟨t, ht⟩ := hc
        have hdrop : List.drop amp.length (c :: rest) = t := by
          rw [← ht, List.drop_left]
        rw [hdrop] at hcontra
        have hcons : ampersand ++ replace amp ampersand t =
            '&' :: replace amp ampersand t := rfl
        rw [hcons] at hcontra
        rcases List.infix_cons_iff.mp hcontra with hpre | hinf
        · rw [amp_eq, List.cons_prefix_cons] at hpre
          have htail : tail4 <+: t := prefix_pullback tail4 tail4_no_amp t hpre.2
          obtain ⟨u, hu⟩ := htail
          have hfull : ampamp ++ u = c :: rest := by
            rw [ampamp_eq, List.append_assoc, hu, ht]
          exact hno (List.IsPrefix.isInfix ⟨u, hfull⟩)
        · have htlen : t.length ≤ n := by
            have hlen := congrArg List.length ht
            have h5 : amp.length = 5 := by decide
            simp only [List.length_append, List.length_cons, h5] at hlen
            simp only [List.length_cons] at hs
            omega
          have htno : ¬ ampamp <:+: t := fun hq =>
            hno (hq.trans (List.IsSuffix.isInfix ⟨amp, ht⟩))
          exact ih t htlen htno hinf
      · have hc' : ¬(amp ≠ [] ∧ amp <+: c :: rest) := fun hh => hc hh.2
        rw [replace_cons_neg amp ampersand c rest hc'] at hcontra
        rcases List.infix_cons_iff.mp hcontra with hpre | hinf
        · rw [amp_eq, List.cons_prefix_cons] at hpre
          have htail : tail4 <+: rest := prefix_pullback tail4 tail4_no_amp rest hpre.2
          have : amp <+: c :: rest := by
            rw [amp_eq, List.cons_prefix_cons]
            exact ⟨hpre.1, htail⟩
          exact hc this
        · have hrno : ¬ ampamp <:+: rest := fun hq => hno (List.infix_cons hq)
          exact ih rest (by simp only [List.length_cons] at hs; omega) hrno hinf

theorem unescape_no_amp (s : List Char) : ¬ amp <:+: unescapeEntities s :=
  no_amp_replace_aux (collapseAmp s).length (collapseAmp s) le_rfl
    (collapseAmp_not_occurs s)

theorem amp_infix_ampamp : amp <:+: ampamp := by decide

theorem unescape_no_ampamp (s : List Char) : ¬ ampamp <:+: unescapeEntities s :=
  fun h => unescape_no_amp s (amp_infix_ampamp.trans h)

theorem unescape_idem (s : List Char) :
    unescapeEntities (unescapeEntities s) = unescapeEntities s := by
  show replace amp ampersand (collapseAmp (unescapeEntities s)) = unescapeEntities s
  rw [collapseAmp_eq_of_no (unescapeEntities s) (unescape_no_ampamp s)]
  exact replace_eq_self amp ampersand (unescapeEntities s) (unescape_no_amp s)

/-- The eight literal tag-adjacency substitutions of the line-break pass, as
(pattern, replacement) pairs, in the order the script applies them. -/
def brkPats : List (List Char × List Char) :=
  [ ( "></div>".toList, ">\n</div>".toList),
    ( "></a>".toList, ">\n</a>".toList),
    ( "><div".toList, ">\n<div".toList),
    ( "><a ".toList, ">\n<a ".toList),
    ( "><svg".toList, ">\n<svg".toList),
    ( "></svg>".toList, ">\n</svg>".toList),
    ( "><button".toList, ">\n<button".toList),
    ( "></button>".toList, ">\n</button>".toList) ]

/-- The line-break-insertion pass: the eight substitutions applied
sequentially, each operating on the output of the previous one. -/
def lineBreaks (s : List Char) : List Char :=
  List.foldl (fun t pr => replace pr.1 pr.2 t) s brkPats

/-- Fuel-indexed embedding of the space-collapsing substitution (a regular
expression matching two or more spaces, replaced by one space): scanning left
to right, wherever two consecutive spaces occur, the greedy match swallows
the whole run of spaces and a single space is emitted; otherwise one
character is copied.  Fuel `s.length` is sufficient since every step consumes
at least one character. -/
def csFuel : Nat → List Char → List Char
  | 0, s => s
  | _ + 1, [] => []
  | _ + 1, [c] => [c]
  | fuel + 1, c1 :: c2 :: rest =>
    if c1 = ' ' ∧ c2 = ' ' then
      ' ' :: csFuel fuel (List.dropWhile (fun c => decide (c = ' ')) rest)
    else
      c1 :: csFuel fuel (c2 :: rest)

/-- Collapse every run of two or more spaces to a single space. -/
def collapseSpaces (s : List Char) : List Char := csFuel s.length s

/-- Python `str.strip()`: remove leading and trailing whitespace. -/
def pyStrip (l : List Char) : List Char :=
  List.reverse (List.dropWhile Char.isWhitespace
    (List.reverse (List.dropWhile Char.isWhitespace l)))

/-- The closing-tag marker checked for the depth decrement. -/
def closeTag : List Char := "</".toList

/-- The opening-bracket marker checked for the depth increment. -/
def openTag : List Char := "<".toList

/-- The self-closing marker checked at the end of a line. -/
def selfClose : List Char := "/>".toList

/-- The void-element substrings whose presence in a line suppresses the
depth increment, exactly as the script lists them. -/
def voidMarkers : List (List Char) :=
  [ "<path".toList, "<svg".toList, "<input".toList, "<img".toList,
    "<br".toList, "<hr".toList ]

/-- The script's condition for incrementing the depth after emitting a
(stripped, non-empty) line: starts with an opening bracket, is not a closing
tag, does not end with the self-closing marker, and contains none of the
void-element substrings. -/
def lineIncrements (line : List Char) : Bool :=
  decide (openTag <+: line) && !decide (closeTag <+: line) &&
    !decide (selfClose <:+ line) && !(voidMarkers.any (fun t => hasSub t line))

/-- One iteration of the re-indentation loop on the state (emitted lines,
depth).  The depth is an integer (a Python int), the decrement is clamped at
zero with `max`, and the emitted line is prefixed by two spaces per depth
level (a negative depth would yield an empty prefix, as in Python). -/
def indentStep (st : List (List Char) × Int) (rawLine : List Char) :
    List (List Char) × Int :=
  if pyStrip rawLine = [] then st
  else
    (st.1 ++ [List.replicate
        (2 * (if closeTag <+: pyStrip rawLine then max 0 (st.2 - 1) else st.2).toNat)
        ' ' ++ pyStrip rawLine],
      if lineIncrements (pyStrip rawLine) then
        (if closeTag <+: pyStrip rawLine then max 0 (st.2 - 1) else st.2) + 1
      else
        (if closeTag <+: pyStrip rawLine then max 0 (st.2 - 1) else st.2))

/-- The newline separator. -/
def nl : List Char := "\n".toList

/-- The re-indentation pass: split on newlines, fold the per-line step from
an empty output and depth zero, and join the emitted lines with newlines. -/
def indentPass (content : List Char) : List Char :=
  List.intercalate nl (List.foldl indentStep ([], 0) (List.splitOn '\n' content)).1

/-- Fuel-indexed embedding of Python `str.count`: the number of
non-overlapping occurrences, scanning left to right. -/
def countFuel (pat : List Char) : Nat → List Char → Nat
  | 0, _ => 0
  | _ + 1, [] => 0
  | fuel + 1, c :: rest =>
    if pat ≠ [] ∧ pat <+: c :: rest then
      1 + countFuel pat fuel (List.drop pat.length (c :: rest))
    else
      countFuel pat fuel rest

/-- Count non-overlapping occurrences of `pat` in `s`. -/
def countSub (pat s : List Char) : Nat := countFuel pat s.length s

/-- The diagnostic open/close substring counts computed by the validation
step, in the order they are printed: div, a, svg, button. -/
def tagBalanceReport (s : List Char) : List (Nat × Nat) :=
  [ (countSub ( "<div".toList) s, countSub ( "</div>".toList) s),
    (countSub ( "<a ".toList) s, countSub ( "</a>".toList) s),
    (countSub ( "<svg".toList) s, countSub ( "</svg>".toList) s),
    (countSub ( "<button".toList) s, countSub ( "</button>".toList) s) ]

/-- The complete content transformation performed between reading and
writing the file: entity unescaping, line-break insertion, the diagnostic
tag-balance count (whose result is only printed and does not touch the
content), space collapsing, and re-indentation. -/
def fixHtmlContent (s : List Char) : List Char :=
  let c1 := unescapeEntities s
  let c2 := lineBreaks c1
  let _report := tagBalanceReport c2
  let c3 := collapseSpaces c2
  indentPass c3

/-- The void-element names exactly as the specification sentence lists them,
without the opening bracket. -/
def voidNames : List (List Char) :=
  [ "path".toList, "svg".toList, "input".toList, "img".toList,
    "br".toList, "hr".toList ]

/-- The indentation step as the specification words it, with the
void-element check amended to the bracketed substrings the code tests: trim
the line; drop it entirely if it is then empty; decrement the depth (floored
at zero) before emitting when the line starts with the closing-tag marker;
emit the line prefixed with two spaces per current depth; increment the
depth after emitting exactly when the line starts with an opening bracket,
is not itself a closing tag, does not end with the self-closing marker, and
contains none of the void-element substrings. -/
def specIndentStep (st : List (List Char) × Int) (rawLine : List Char) :
    List (List Char) × Int :=
  if pyStrip rawLine = [] then st
  else
    (st.1 ++ [(List.replicate
        (if closeTag <+: pyStrip rawLine then max (st.2 - 1) 0 else st.2).toNat
        (' ' :: ' ' :: [])).flatten ++ pyStrip rawLine],
      if (openTag <+: pyStrip rawLine) ∧ ¬(closeTag <+: pyStrip rawLine) ∧
          ¬(selfClose <:+ pyStrip rawLine) ∧
          (∀ t ∈ voidMarkers, ¬ t <:+: pyStrip rawLine) then
        (if closeTag <+: pyStrip rawLine then max (st.2 - 1) 0 else st.2) + 1
      else
        (if closeTag <+: pyStrip rawLine then max (st.2 - 1) 0 else st.2))

/-- Modelled from the spec: the indentation step exactly as the claim words
it, where the suppression check is on the bare void-element names (path,
svg, input, img, br, hr) rather than on the bracketed substrings the code
tests. -/
def claimIndentStep (st : List (List Char) × Int) (rawLine : List Char) :
    List (List Char) × Int :=
  if pyStrip rawLine = [] then st
  else
    (st.1 ++ [(List.replicate
        (if closeTag <+: pyStrip rawLine then max (st.2 - 1) 0 else st.2).toNat
        (' ' :: ' ' :: [])).flatten ++ pyStrip rawLine],
      if (openTag <+: pyStrip rawLine) ∧ ¬(closeTag <+: pyStrip rawLine) ∧
          ¬(selfClose <:+ pyStrip rawLine) ∧
          (∀ t ∈ voidNames, ¬ t <:+: pyStrip rawLine) then
        (if closeTag <+: pyStrip rawLine then max (st.2 - 1) 0 else st.2) + 1
      else
        (if closeTag <+: pyStrip rawLine then max (st.2 - 1) 0 else st.2))

theorem flatten_two_spaces : ∀ n : Nat,
    (List.replicate n (' ' :: ' ' :: [])).flatten = List.replicate (2 * n) ' ' := by
  intro n
  induction n with
  | zero => rfl
  | succ n ih =>
    rw [List.replicate_succ, List.flatten_cons, ih]
    have h2 : 2 * (n + 1) = 2 * n + 1 + 1 := by ring
    rw [h2, List.replicate_succ, List.replicate_succ]
    rfl

theorem lineIncrements_iff (line : List Char) :
    lineIncrements line = true ↔
      ((openTag <+: line) ∧ ¬(closeTag <+: line) ∧ ¬(selfClose <:+ line) ∧
        ∀ t ∈ voidMarkers, ¬ t <:+: line) := by
  simp [lineIncrements, hasSub, and_assoc]

theorem indentStep_eq_spec (st : List (List Char) × Int) (raw : List Char) :
    indentStep st raw = specIndentStep st raw := by
  unfold indentStep specIndentStep
  by_cases h0 : pyStrip raw = []
  · rw [if_pos h0, if_pos h0]
  · rw [if_neg h0, if_neg h0]
    rw [flatten_two_spaces]
    have hmax : (if closeTag <+: pyStrip raw then max (st.2 - 1) 0 else st.2) =
        (if closeTag <+: pyStrip raw then max 0 (st.2 - 1) else st.2) := by
      by_cases hc : closeTag <+: pyStrip raw
      · rw [if_pos hc, if_pos hc, max_comm]
      · rw [if_neg hc, if_neg hc]
    rw [hmax]
    by_cases hi : lineIncrements (pyStrip raw) = true
    · rw [if_pos hi, if_pos ((lineIncrements_iff (pyStrip raw)).mp hi)]
    · rw [if_neg hi, if_neg (fun hP => hi ((lineIncrements_iff (pyStrip raw)).mpr hP))]

theorem dropWhile_head_false (p : Char → Bool) (l : List Char) :
    List.dropWhile p l = [] ∨
      ∃ c t, List.dropWhile p l = c :: t ∧ p c = false := by
  induction l with
  | nil => exact Or.inl rfl
  | cons a l ih =>
    by_cases hp : p a = true
    · rw [List.dropWhile_cons_of_pos hp]
      exact ih
    · rw [List.dropWhile_cons_of_neg hp]
      exact Or.inr ⟨a, l, rfl, Bool.eq_false_iff.mpr hp⟩

theorem pyStrip_head (raw : List Char) :
    pyStrip raw = [] ∨
      ∃ c t, pyStrip raw = c :: t ∧ c.isWhitespace = false := by
  rcases dropWhile_head_false Char.isWhitespace raw with h | ⟨c, t, he, hc⟩
  · left
    unfold pyStrip
    rw [h]
    rfl
  · have hpre : pyStrip raw <+: List.dropWhile Char.isWhitespace raw := by
      unfold pyStrip
      have hsuf : List.dropWhile Char.isWhitespace
            (List.reverse (List.dropWhile Char.isWhitespace raw)) <:+
          List.reverse (List.dropWhile Char.isWhitespace raw) :=
        List.dropWhile_suffix Char.isWhitespace
      obtain ⟨u, hu⟩ := hsuf
      refine ⟨List.reverse u, ?_⟩
      have hrev := congrArg List.reverse hu
      rw [List.reverse_append, List.reverse_reverse] at hrev
      exact hrev
    cases hres : pyStrip raw with
    | nil => exact Or.inl rfl
    | cons c' t' =>
      right
      refine ⟨c', t', rfl, ?_⟩
      rw [hres, he, List.cons_prefix_cons] at hpre
      rw [hpre.1]
      exact hc

theorem takeWhile_space_replicate (m : Nat) (c : Char) (t : List Char)
    (hc : ¬ c = ' ') :
    List.takeWhile (fun x => decide (x = ' '))
        (List.replicate m ' ' ++ c :: t) = List.replicate m ' ' := by
  induction m with
  | zero => simp [hc]
  | succ m ih => simp [List.replicate_succ, ih]

theorem indent_invariant (lines : List (List Char)) :
    ∀ acc : List (List Char), ∀ d : Int, 0 ≤ d →
      (∀ l ∈ acc, ∃ k : Nat,
        (List.takeWhile (fun x => decide (x = ' ')) l).length = 2 * k) →
      0 ≤ (List.foldl indentStep (acc, d) lines).2 ∧
        ∀ l ∈ (List.foldl indentStep (acc, d) lines).1,
          ∃ k : Nat,
            (List.takeWhile (fun x => decide (x = ' ')) l).length = 2 * k := by
  induction lines with
  | nil =>
    intro acc d hd hacc
    exact ⟨hd, hacc⟩
  | cons raw rest ih =>
    intro acc d hd hacc
    rw [List.foldl_cons]
    by_cases h0 : pyStrip raw = []
    · rw [show indentStep (acc, d) raw = (acc, d) from by
        unfold indentStep; rw [if_pos h0]]
      exact ih acc d hd hacc
    · have hstep : indentStep (acc, d) raw =
          (acc ++ [List.replicate
              (2 * (if closeTag <+: pyStrip raw then max 0 (d - 1) else d).toNat)
              ' ' ++ pyStrip raw],
            if lineIncrements (pyStrip raw) then
              (if closeTag <+: pyStrip raw then max 0 (d - 1) else d) + 1
            else
              (if closeTag <+: pyStrip raw then max 0 (d - 1) else d)) := by
        unfold indentStep
        rw [if_neg h0]
      rw [hstep]
      have hd0 : 0 ≤ (if closeTag <+: pyStrip raw then max 0 (d - 1) else d) := by
        by_cases hcl : closeTag <+: pyStrip raw
        · rw [if_pos hcl]
          exact le_max_left 0 (d - 1)
        · rw [if_neg hcl]
          exact hd
      apply ih
      · by_cases hi : lineIncrements (pyStrip raw) = true
        · rw [if_pos hi]
          omega
        · rw [if_neg hi]
          exact hd0
      · intro l hl
        rcases List.mem_append.mp hl with hin | hin
        · exact hacc l hin
        · rw [List.mem_singleton] at hin
          subst hin
          refine ⟨(if closeTag <+: pyStrip raw then max 0 (d - 1) else d).toNat, ?_⟩
          rcases pyStrip_head raw with he | ⟨c, t, he, hcw⟩
          · exact absurd he h0
          · rw [he, takeWhile_space_replicate _ c t (fun hsp => by
              rw [hsp] at hcw
              simp at hcw)]
            simp

/-- The non-whitespace characters of a string, in order. -/
def stripWs (s : List Char) : List Char :=
  List.filter (fun c => !c.isWhitespace) s

theorem stripWs_dropWhile_space (rest : List Char) :
    stripWs (List.dropWhile (fun c => decide (c = ' ')) rest) = stripWs rest := by
  induction rest with
  | nil => rfl
  | cons a l ih =>
    by_cases ha : a = ' '
    · subst ha
      rw [List.dropWhile_cons_of_pos (by simp), ih]
      simp [stripWs]
    · rw [List.dropWhile_cons_of_neg (by simp [ha])]

theorem stripWs_csFuel : ∀ fuel s, s.length ≤ fuel →
    stripWs (csFuel fuel s) = stripWs s := by
  intro fuel
  induction fuel with
  | zero =>
    intro s hs
    have : s = [] := List.length_eq_zero.mp (Nat.le_zero.mp hs)
    subst this
    rfl
  | succ fuel ih =>
    intro s hs
    match s with
    | [] => rfl
    | [c] => rfl
    | c1 :: c2 :: rest =>
      simp only [csFuel]
      by_cases h : c1 = ' ' ∧ c2 = ' '
      · rw [if_pos h]
        have hlen : (List.dropWhile (fun c => decide (c = ' ')) rest).length ≤ fuel := by
          have h1 : (List.dropWhile (fun c => decide (c = ' ')) rest).length ≤
              rest.length :=
            (List.dropWhile_suffix (fun c => decide (c = ' '))).length_le
          simp only [List.length_cons] at hs
          omega
        have hrw := ih (List.dropWhile (fun c => decide (c = ' ')) rest) hlen
        rw [show stripWs (' ' :: csFuel fuel (List.dropWhile (fun c => decide (c = ' ')) rest)) =
            stripWs (csFuel fuel (List.dropWhile (fun c => decide (c = ' ')) rest)) from by
          simp [stripWs]]
        rw [hrw, stripWs_dropWhile_space]
        rcases h with ⟨h1, h2⟩
        subst h1
        subst h2
        simp [stripWs]
      · rw [if_neg h]
        have hrw := ih (c2 :: rest) (by simp only [List.length_cons] at *; omega)
        simp only [stripWs, List.filter_cons] at *
        rw [hrw]

theorem stripWs_collapseSpaces (s : List Char) :
    stripWs (collapseSpaces s) = stripWs s :=
  stripWs_csFuel s.length s le_rfl

theorem stripWs_replace (pat repl : List Char)
    (hf : stripWs pat = stripWs repl) (s : List Char) :
    stripWs (replace pat repl s) = stripWs s :=
  filter_replace (fun c => !c.isWhitespace) pat repl hf s

theorem stripWs_lineBreaks (s : List Char) :
    stripWs (lineBreaks s) = stripWs s := by
  show stripWs (List.foldl (fun t pr => replace pr.1 pr.2 t) s brkPats) = stripWs s
  simp only [brkPats, List.foldl_cons, List.foldl_nil]
  rw [stripWs_replace _ _ (by decide), stripWs_replace _ _ (by decide),
    stripWs_replace _ _ (by decide), stripWs_replace _ _ (by decide),
    stripWs_replace _ _ (by decide), stripWs_replace _ _ (by decide),
    stripWs_replace _ _ (by decide), stripWs_replace _ _ (by decide)]

/-- C1: for every input, the entity-unescaping pass computes the fixed point
of the doubly-escaped-ampersand collapse (re-applying the collapsing
replacement changes nothing and no doubly escaped sequence remains) and then
replaces every remaining singly escaped sequence by a literal ampersand; in
particular the claim's concrete input yields the claimed output. -/
theorem C1_unescape_fixed_point :
    (∀ s : List Char, replace ampamp amp (collapseAmp s) = collapseAmp s ∧
        hasSub ampamp (collapseAmp s) = false ∧
        unescapeEntities s = replace amp ampersand (collapseAmp s)) ∧
      unescapeEntities ( "&amp;amp;amp;Foo".toList) = "&Foo".toList := by
  constructor
  · intro s
    exact ⟨collapseAmp_fixed s, collapseAmp_no s, rfl⟩
  · decide

/-- C3: the entity-unescape pass is idempotent: applying it to its own
output yields the same result as applying it once. -/
theorem C3_unescape_idempotent (s : List Char) :
    unescapeEntities (unescapeEntities s) = unescapeEntities s :=
  unescape_idem s

/-- C4: the line-break-insertion substitutions together with the collapsing
of space runs change only whitespace: removing every whitespace character
from the pass's input and output yields identical strings. -/
theorem C4_linebreaks_preserve_content (s : List Char) :
    stripWs (collapseSpaces (lineBreaks s)) = stripWs s := by
  rw [stripWs_collapseSpaces, stripWs_lineBreaks]

/-- C5: throughout the indentation pass the depth counter is never negative,
and every emitted line's leading-space prefix is an even number of spaces
(two per depth level), for every input line sequence. -/
theorem C5_depth_nonneg (lines : List (List Char)) :
    0 ≤ (List.foldl indentStep ([], 0) lines).2 ∧
      ∀ l ∈ (List.foldl indentStep ([], 0) lines).1,
        ∃ k : Nat, (List.takeWhile (fun x => decide (x = ' ')) l).length = 2 * k :=
  indent_invariant lines [] 0 le_rfl (by simp)

/-- C7: the entity-collapse loop terminates for every finite input: within
at most length-many iterations of the replacement step the doubly escaped
sequence is eliminated, and the loop computes exactly that iterate. -/
theorem C7_collapse_terminates (s : List Char) :
    ∃ n, n ≤ s.length ∧
      collapseAmp s = (fun t => replace ampamp amp t)^[n] s ∧
      hasSub ampamp (collapseAmp s) = false := by
  obtain ⟨n, hn, he⟩ := collapseLoop_iter s.length s le_rfl
  exact ⟨n, hn, he, collapseAmp_no s⟩

/-- C8: the tag-balance counting step never modifies the document: the
written content is exactly the transformation chain without the counting,
and on an input with a mismatched div count the report shows the mismatch
while the content is still produced unchanged by it. -/
theorem C8_report_pure :
    (∀ s, fixHtmlContent s =
        indentPass (collapseSpaces (lineBreaks (unescapeEntities s)))) ∧
      tagBalanceReport ( "<div>".toList) = [(1, 0), (0, 0), (0, 0), (0, 0)] ∧
      fixHtmlContent ( "<div>".toList) = "<div>".toList := by
  refine ⟨fun s => rfl, by decide, by decide⟩

/-- C9: the output of the entity-unescaping pass contains no occurrence of
the singly escaped ampersand sequence. -/
theorem C9_no_escaped_amp (s : List Char) :
    hasSub amp (unescapeEntities s) = false := by
  have h := unescape_no_amp s
  simp [hasSub, h]

/-- C10: the no-progress guard of the collapse loop is unreachable: whenever
the doubly escaped sequence occurs in the string, replacing all its
occurrences yields a strictly shorter and therefore different string. -/
theorem C10_guard_unreachable (s : List Char) (h : hasSub ampamp s = true) :
    (replace ampamp amp s).length < s.length ∧ replace ampamp amp s ≠ s := by
  have hlt := replace_length_lt ampamp amp ampamp_ne amp_len_lt s
    ((hasSub_iff ampamp s).mp h)
  exact ⟨hlt, fun he => by rw [he] at hlt; exact lt_irrefl _ hlt⟩

/-- Witness for C10 at a concrete input containing the doubly escaped
sequence. -/
theorem C10_guard_unreachable_witness :
    hasSub ampamp ( "&amp;amp;X".toList) = true ∧
      ((replace ampamp amp ( "&amp;amp;X".toList)).length <
          ( "&amp;amp;X".toList).length ∧
        replace ampamp amp ( "&amp;amp;X".toList) ≠ "&amp;amp;X".toList) :=
  ⟨by decide, C10_guard_unreachable ( "&amp;amp;X".toList) (by decide)⟩

/-- Counterexample to C2 as stated: on a line that merely mentions the bare
void-element name svg inside an attribute value, the claim's check with bare
names suppresses the depth increment while the code, which looks for the
bracketed substrings, increments it. -/
theorem C2_counterexample :
    indentStep ([], 0) ( "<div class=\"a-svg-b\">".toList) ≠
      claimIndentStep ([], 0) ( "<div class=\"a-svg-b\">".toList) := by
  decide

/-- C2 (amended): every line of the indentation pass is processed exactly as
the claim describes once the void-element check reads the bracketed
substrings the code actually tests; and a self-closing line such as the
claim's path element never increments the depth counter. -/
theorem C2_indent_step :
    (∀ st raw, indentStep st raw = specIndentStep st raw) ∧
      ∀ acc : List (List Char), ∀ d : Int,
        (indentStep (acc, d) ( "<path d=\"M0 0\"/>".toList)).2 = d := by
  constructor
  · exact indentStep_eq_spec
  · intro acc d
    unfold indentStep
    rw [if_neg (show ¬ pyStrip ( "<path d=\"M0 0\"/>".toList) = [] from by decide)]
    show (if lineIncrements (pyStrip ( "<path d=\"M0 0\"/>".toList)) then
        (if closeTag <+: pyStrip ( "<path d=\"M0 0\"/>".toList) then
          max 0 (d - 1) else d) + 1
      else
        (if closeTag <+: pyStrip ( "<path d=\"M0 0\"/>".toList) then
          max 0 (d - 1) else d)) = d
    rw [if_neg (show ¬ lineIncrements (pyStrip ( "<path d=\"M0 0\"/>".toList)) = true
      from by decide)]
    rw [if_neg (show ¬ closeTag <+: pyStrip ( "<path d=\"M0 0\"/>".toList)
      from by decide)]

/-- Counterexample to C6 as stated: on the claim's input the combined
line-break and indentation passes do not emit the final closing div at zero
indentation. -/
theorem C6_counterexample :
    indentPass (collapseSpaces (lineBreaks
        ( "<div><a href=\"x\">Link</a></div>".toList))) ≠
      "<div>\n  <a href=\"x\">Link</a>\n</div>".toList := by
  decide

/-- C6 (amended): the passes produce exactly three lines: the div opener at
zero indentation, the anchor line indented one level, and the final closing
div also indented one level, because the anchor line (which starts with an
opening bracket and does not end with the self-closing marker) increments
the depth to two, and the closing tag only brings it back to one. -/
theorem C6_three_lines :
    indentPass (collapseSpaces (lineBreaks
        ( "<div><a href=\"x\">Link</a></div>".toList))) =
      "<div>\n  <a href=\"x\">Link</a>\n  </div>".toList := by
  decide

end FixHtml
